import Mathlib

/-!
Shallow embedding of the nesdoku Sudoku core (src/sudoku.rs) and the
frontier-stepping logic of its driving loop (src/main.rs), together with
theorems settling the specification claims about them.

Boards are total functions `Nat → Nat → Cell`; `board y x` mirrors the Rust
`self.board[y][x]`.  The Rust grid is preallocated to exactly 9x9, and every
operation except `from_file` only ever indexes coordinates below 9, so cells
at coordinates 9 or above are phantom cells the Rust program never touches;
`from_file` is the one place an out-of-bounds index can be reached, and there
the `Vec` indexing panic is modelled explicitly by an `Option` result.

Randomness: `collapse_cell` consumes `rng.gen_range(0..nums.len())` and a
`shuffle`; these are passed in as explicit parameters (`rand_idx`, `shuffle`).
The random source always yields `rand_idx < nums.len()` and `shuffle`
permutes its input; theorems that depend on these facts take them as
hypotheses.
-/

namespace Nesdoku

/-- Mirrors `enum CellValue { Certain(u32), Uncertain(Vec<u32>) }`. -/
inductive CellValue where
  | Certain : Nat → CellValue
  | Uncertain : List Nat → CellValue
deriving DecidableEq

/-- Mirrors `CellValue::is_certain` (`matches!(*self, CellValue::Certain(_))`). -/
def CellValue.is_certain : CellValue → Bool
  | CellValue.Certain _ => true
  | CellValue.Uncertain _ => false

/-- Mirrors `CellValue::as_vec`. -/
def CellValue.as_vec : CellValue → List Nat
  | CellValue.Certain num => [num]
  | CellValue.Uncertain nums => nums

/-- The `Certain` payload of a value, if any (used to state that a pass over
the board preserves every settled value). -/
def certVal : CellValue → Option Nat
  | CellValue.Certain n => some n
  | CellValue.Uncertain _ => none

/-- Mirrors `struct Cell { value: CellValue, is_static: bool }`. -/
structure Cell where
  value : CellValue
  is_static : Bool
deriving DecidableEq

/-- Mirrors `struct Sudoku { board: Vec<Vec<Cell>> }`; `board y x` is the Rust
`self.board[y][x]`. -/
structure Sudoku where
  board : Nat → Nat → Cell

/-- Mirrors `Sudoku::BOARD_DIM`. -/
def BOARD_DIM : Nat := 9

/-- Mirrors `Sudoku::QUADRANT_DIM`. -/
def QUADRANT_DIM : Nat := 3

/-- Mirrors `Sudoku::get_cell`. -/
def get_cell (s : Sudoku) (x y : Nat) : Cell := s.board y x

/-- One Rust cell-value write `self.board[y][x].value = v` (the static flag of
the written cell is kept, as in the source). -/
def setValue (s : Sudoku) (x y : Nat) (v : CellValue) : Sudoku :=
  ⟨fun y' x' => if y' = y ∧ x' = x then ⟨v, (s.board y' x').is_static⟩ else s.board y' x'⟩

/-- Mirrors `quadrant_coords`; the Rust `assert!(quadrant_x < QUADRANT_DIM && …)`
is a precondition that every call site satisfies (`x / 3` with `x < 9`). -/
def quadrant_coords (quadrant_x quadrant_y : Nat) : List (Nat × Nat) :=
  let qx := quadrant_x * QUADRANT_DIM
  let qy := quadrant_y * QUADRANT_DIM
  (List.range QUADRANT_DIM).flatMap (fun dy =>
    (List.range QUADRANT_DIM).map (fun dx => (qx + dx, qy + dy)))

/-- Mirrors `row_coords`: pushes `(row_index, y)` for `y` in `0..BOARD_DIM`. -/
def row_coords (row_index : Nat) : List (Nat × Nat) :=
  (List.range BOARD_DIM).map (fun y => (row_index, y))

/-- Mirrors `column_coords`: pushes `(x, column_index)` for `x` in `0..BOARD_DIM`. -/
def column_coords (column_index : Nat) : List (Nat × Nat) :=
  (List.range BOARD_DIM).map (fun x => (x, column_index))

/-- The row-major coordinate order `for y in 0..9 { for x in 0..9 { (x, y) } }`
shared by `update_possible_values`, `find_less_entropy`, `reset_board` and the
all-certain check of `complete`. -/
def scan_coords : List (Nat × Nat) :=
  (List.range BOARD_DIM).flatMap (fun y => (List.range BOARD_DIM).map (fun x => (x, y)))

/-- The blank preallocated cell `Cell::new(CellValue::Uncertain(vec![]), false)`. -/
def blankCell : Cell := ⟨CellValue.Uncertain [], false⟩

/-- The preallocated board `vec![vec![blank; BOARD_DIM]; BOARD_DIM]`. -/
def blankS : Sudoku := ⟨fun _ _ => blankCell⟩

/-- Mirrors `char.to_string().parse::<u32>()` applied to one character: it
succeeds exactly on an ascii digit and yields its value. -/
def parse_digit (c : Char) : Option Nat :=
  if c.isDigit then some (c.toNat - 48) else none

/-- One pair of writes `board[y][x].value = Certain(num); board[y][x].is_static
= true`; `none` models the `Vec` index-out-of-bounds panic that the source hits
when `y` or `x` is 9 or more. -/
def writeCell (s : Sudoku) (x y num : Nat) : Option Sudoku :=
  if y < BOARD_DIM ∧ x < BOARD_DIM then
    some ⟨fun y' x' =>
      if y' = y ∧ x' = x then ⟨CellValue.Certain num, true⟩ else s.board y' x'⟩
  else none

/-- Mirrors `from_file` after `read_to_string`: the input text is given as its
list of lines, each a list of characters (`lines().enumerate()` over
`chars().enumerate()`). -/
def from_file (ls : List (List Char)) : Option Sudoku :=
  ls.enum.foldlM (fun s yl =>
    yl.2.enum.foldlM (fun s xc =>
      match parse_digit xc.2 with
      | some num => writeCell s xc.1 yl.1 num
      | none => some s) s) blankS

/-- Mirrors `(1..=9).collect::<Vec<u32>>()`. -/
def initialCands : List Nat := (List.range 9).map (fun i => i + 1)

/-- Mirrors `if let Some(index) = possible_values.iter().position(|x| *x == num)
{ possible_values.remove(index) }`. -/
def removeVal (pv : List Nat) (num : Nat) : List Nat :=
  match pv.findIdx? (fun v => v == num) with
  | some index => pv.eraseIdx index
  | none => pv

/-- The chained peer coordinates `quadrant.into_iter().chain(row).chain(column)`
read by `update_possible_cell_values` for the cell at `(x, y)`. -/
def peers_coords (x y : Nat) : List (Nat × Nat) :=
  quadrant_coords (x / QUADRANT_DIM) (y / QUADRANT_DIM) ++ row_coords x ++ column_coords y

/-- The candidate list computed inside `update_possible_cell_values`. -/
def computeCands (s : Sudoku) (x y : Nat) : List Nat :=
  (peers_coords x y).foldl (fun pv c =>
    match (s.board c.2 c.1).value with
    | CellValue.Certain num => removeVal pv num
    | CellValue.Uncertain _ => pv) initialCands

/-- Mirrors `update_possible_cell_values`. -/
def update_possible_cell_values (s : Sudoku) (x y : Nat) : Sudoku :=
  if (s.board y x).is_static || (s.board y x).value.is_certain then s
  else setValue s x y (CellValue.Uncertain (computeCands s x y))

/-- Mirrors `update_possible_values` (row-major pass over all 81 cells). -/
def update_possible_values (s : Sudoku) : Sudoku :=
  scan_coords.foldl (fun s c => update_possible_cell_values s c.1 c.2) s

/-- The two error returns of `collapse_cell`; the source uses the strings
"Cannot collapse cell with no numbers" and
"Trying to collapse cell with Certain value". -/
inductive CollapseError where
  | EmptyDomain : CollapseError
  | AlreadyFixed : CollapseError
deriving DecidableEq

/-- Mirrors `collapse_cell`.  `rand_idx` stands for
`rng.gen_range(0..nums.len())` (the random source always yields an index below
`nums.len()`), and `shuffle` stands for `possible_boards.shuffle(&mut rng)`
(always a permutation of its input); both are explicit parameters here. -/
def collapse_cell (s : Sudoku) (x y : Nat) (rand_idx : Nat)
    (shuffle : List Sudoku → List Sudoku) :
    Sudoku × Except CollapseError (List Sudoku) :=
  match (s.board y x).value with
  | CellValue.Uncertain numbers =>
    let nums := numbers
    if nums.isEmpty then
      (s, Except.error CollapseError.EmptyDomain)
    else
      let s' := setValue s x y (CellValue.Certain (nums.getD rand_idx 0))
      let possible_boards :=
        ((List.range nums.length).filter (fun i => i != rand_idx)).map
          (fun i => setValue s' x y (CellValue.Certain (nums.getD i 0)))
      (s', Except.ok (shuffle possible_boards))
  | CellValue.Certain _ => (s, Except.error CollapseError.AlreadyFixed)

/-- Mirrors `usize::MAX`, the initial `less_entropy` of `find_less_entropy`. -/
def USIZE_MAX : Nat := 2 ^ 64 - 1

/-- The loop body of `find_less_entropy`. -/
def findStep (s : Sudoku) (acc : (Nat × Nat) × Nat) (c : Nat × Nat) : (Nat × Nat) × Nat :=
  match (s.board c.2 c.1).value with
  | CellValue.Uncertain numbers =>
    if numbers.length < acc.2 then (c, numbers.length) else acc
  | CellValue.Certain _ => acc

/-- Mirrors `find_less_entropy`. -/
def find_less_entropy (s : Sudoku) : Nat × Nat :=
  (scan_coords.foldl (findStep s) ((0, 0), USIZE_MAX)).1

/-- Mirrors `reset_board`. -/
def reset_board (s : Sudoku) : Sudoku :=
  scan_coords.foldl (fun s c =>
    if (s.board c.2 c.1).is_static then s
    else setValue s c.1 c.2 (CellValue.Uncertain [])) s

/-- The `…map(|(x, y)| self.board[y][x].value.as_vec()[0]).sum::<u32>()` of
`complete`; `as_vec()[0]` is only reached once every cell is certain, so the
list is then a singleton and `getD 0 0` is its head. -/
def groupSum (s : Sudoku) (coords : List (Nat × Nat)) : Nat :=
  (coords.map (fun c => ((s.board c.2 c.1).value.as_vec).getD 0 0)).sum

/-- Mirrors `complete` (the early returns become short-circuiting `&&`). -/
def complete (s : Sudoku) : Bool :=
  let expected_sum := 45
  (scan_coords.all (fun c => (s.board c.2 c.1).value.is_certain)) &&
  ((List.range QUADRANT_DIM).all (fun qy =>
    (List.range QUADRANT_DIM).all (fun qx =>
      groupSum s (quadrant_coords qx qy) == expected_sum))) &&
  ((List.range BOARD_DIM).all (fun i =>
    (groupSum s (row_coords i) == expected_sum) &&
    (groupSum s (column_coords i) == expected_sum)))

/-- The body of the Space-key handler of `main` run on the frontier: update the
active board, pick its least-entropy cell, collapse; on success each
alternative is inserted at index 1 (so they end up reversed right after the
active board), on failure `boards.remove(0)` drops the active board.  After
this the source asserts `boards.len() > 0`. -/
def step_frontier (boards : List Sudoku) (rand_idx : Nat)
    (shuffle : List Sudoku → List Sudoku) : List Sudoku :=
  match boards with
  | [] => []
  | b :: rest =>
    let b1 := update_possible_values b
    let fc := find_less_entropy b1
    match collapse_cell b1 fc.1 fc.2 rand_idx shuffle with
    | (b2, Except.ok other_possibilities) => b2 :: (other_possibilities.reverse ++ rest)
    | (_, Except.error _) => rest

/-- The boards reachable from an initially loaded board `b0` by the core
operations the driving loop performs on the active board: a candidate
recomputation pass, a collapse at an in-bounds cell (the loop collapses at
`find_less_entropy` output, which is always below 9), and a reset. -/
inductive Reach (b0 : Sudoku) : Sudoku → Prop where
  | refl : Reach b0 b0
  | update : ∀ {b}, Reach b0 b → Reach b0 (update_possible_values b)
  | collapse : ∀ {b} (x y rand_idx : Nat) (shuffle : List Sudoku → List Sudoku),
      x < BOARD_DIM → y < BOARD_DIM → Reach b0 b →
      Reach b0 (collapse_cell b x y rand_idx shuffle).1
  | reset : ∀ {b}, Reach b0 b → Reach b0 (reset_board b)

/-- Coordinate `(cx, cy)` shares a row, a column or a 3x3 quadrant with
`(x, y)` (the spec's three classic constraint groups, under the source's
convention that the first component indexes `board[·][first]`). -/
def same_group (x y cx cy : Nat) : Bool :=
  (cx == x) || (cy == y) ||
  ((cx / QUADRANT_DIM == x / QUADRANT_DIM) && (cy / QUADRANT_DIM == y / QUADRANT_DIM))

/-- Value `v` is settled somewhere in the row, column or quadrant of `(x, y)`. -/
def fixed_among_peers (s : Sudoku) (x y v : Nat) : Bool :=
  scan_coords.any (fun c =>
    same_group x y c.1 c.2 && (certVal (s.board c.2 c.1).value == some v))

/-- Following the spec's words: "{1..9} minus every Fixed value found among the
union of the cell's row, column, and containing quadrant". -/
def specCands (s : Sudoku) (x y : Nat) : List Nat :=
  initialCands.filter (fun v => !(fixed_among_peers s x y v))

/-- The candidate count of the cell at `c`, when it is a candidates cell. -/
def uncLen (s : Sudoku) (c : Nat × Nat) : Option Nat :=
  match (s.board c.2 c.1).value with
  | CellValue.Uncertain numbers => some numbers.length
  | CellValue.Certain _ => none

/-- The digit the input text places at column `x` of line `y`, if any. -/
def digitAt (ls : List (List Char)) (x y : Nat) : Option Nat :=
  (ls.get? y).bind (fun line => (line.get? x).bind parse_digit)

/-- Following the spec's words for a loaded cell: a digit at the position gives
a static settled cell, anything else leaves the preallocated blank cell. -/
def loadCellSpec (ls : List (List Char)) (x y : Nat) : Cell :=
  match digitAt ls x y with
  | some d => ⟨CellValue.Certain d, true⟩
  | none => blankCell

/-- A one-line demo input: the single character 5 at position (0, 0). -/
def demoLines : List (List Char) := [['5']]

/-- The demo input loaded. -/
def demoB : Sudoku := (from_file demoLines).getD blankS

/-- An input whose blank cell at (8, 0) has an empty candidate domain: the
first row settles 1..8 in its columns 0..7, and the 9 at (8, 1) removes the
last candidate of (8, 0). -/
def badLines : List (List Char) :=
  [['1', '2', '3', '4', '5', '6', '7', '8'],
   ['.', '.', '.', '.', '.', '.', '.', '.', '9']]

/-- The dead-end input loaded. -/
def badStart : Sudoku := (from_file badLines).getD blankS

/-- An input with a digit at column index 9 of the first line, outside the
preallocated 9x9 grid. -/
def overflowLines : List (List Char) :=
  [['.', '.', '.', '.', '.', '.', '.', '.', '.', '7']]

/-- A fully settled board holding 5 in every cell: every row, column and
quadrant sums to 45 without being a permutation of 1..9. -/
def allFivesS : Sudoku := ⟨fun _ _ => ⟨CellValue.Certain 5, true⟩⟩

/-- A board whose cell (0, 0) holds the candidates 1, 2, 3. -/
def demoC1 : Sudoku := setValue blankS 0 0 (CellValue.Uncertain [1, 2, 3])

/-- The settled values that the `update_possible_cell_values` loop removes, in
read order: the `Certain` payloads among a coordinate list. -/
def certListAt (s : Sudoku) (coords : List (Nat × Nat)) : List Nat :=
  coords.filterMap (fun c => certVal (s.board c.2 c.1).value)

/-- Every cell of a freshly loaded board is either the preallocated blank cell
or a static settled digit — the only two cell shapes `from_file` produces. -/
def loadedCellOK (s : Sudoku) : Prop :=
  ∀ y x : Nat, s.board y x = blankCell ∨ ∃ d, s.board y x = ⟨CellValue.Certain d, true⟩

/-- The inner per-character closure of `from_file`, for the line at row `y`
(named so the parsing loop can be reasoned about; definitionally equal to the
closure inside `from_file`). -/
def lineStep (y : Nat) (s : Sudoku) (xc : Nat × Char) : Option Sudoku :=
  match parse_digit xc.2 with
  | some num => writeCell s xc.1 y num
  | none => some s

/-- The outer per-line closure of `from_file` (definitionally equal to the
closure inside `from_file`). -/
def rowStep (s : Sudoku) (yl : Nat × List Char) : Option Sudoku :=
  yl.2.enum.foldlM (lineStep yl.1) s

/-- The digit the character-suffix `cs` of a line places at absolute column
`X`, when the suffix starts at column `x0`. -/
def lineDigit (cs : List Char) (x0 X : Nat) : Option Nat :=
  if x0 ≤ X then (cs.get? (X - x0)).bind parse_digit else none

/-- The digit the line-suffix `rest` places at `(X, Y)` when the suffix starts
at row `y0`. -/
def rowsDigit (rest : List (List Char)) (y0 X Y : Nat) : Option Nat :=
  if y0 ≤ Y then (rest.get? (Y - y0)).bind (fun line => lineDigit line 0 X) else none

/-! Basic lemmas about the embedding. -/

theorem sudoku_ext {s t : Sudoku} (h : ∀ y x, s.board y x = t.board y x) : s = t := by
  cases s
  cases t
  simp only [Sudoku.mk.injEq]
  funext y x
  exact h y x

theorem setValue_board (s : Sudoku) (x y : Nat) (v : CellValue) (y' x' : Nat) :
    (setValue s x y v).board y' x' =
      if y' = y ∧ x' = x then ⟨v, (s.board y' x').is_static⟩ else s.board y' x' := rfl

theorem setValue_same (s : Sudoku) (x y : Nat) (v : CellValue) :
    (setValue s x y v).board y x = ⟨v, (s.board y x).is_static⟩ := by
  simp [setValue_board]

theorem setValue_other (s : Sudoku) (x y : Nat) (v : CellValue) {y' x' : Nat}
    (h : ¬(y' = y ∧ x' = x)) : (setValue s x y v).board y' x' = s.board y' x' := by
  simp [setValue_board, h]

theorem setValue_is_static (s : Sudoku) (x y : Nat) (v : CellValue) (y' x' : Nat) :
    ((setValue s x y v).board y' x').is_static = (s.board y' x').is_static := by
  by_cases h : y' = y ∧ x' = x
  · simp [setValue_board, h]
  · simp [setValue_board, h]

theorem setValue_setValue (s : Sudoku) (x y : Nat) (v w : CellValue) :
    setValue (setValue s x y v) x y w = setValue s x y w := by
  apply sudoku_ext
  intro y' x'
  by_cases h : y' = y ∧ x' = x
  · simp [setValue_board, h]
  · simp [setValue_board, h]

theorem mem_scan_coords {c : Nat × Nat} : c ∈ scan_coords ↔ c.1 < 9 ∧ c.2 < 9 := by
  rcases c with ⟨x, y⟩
  simp only [scan_coords, BOARD_DIM, List.mem_flatMap, List.mem_map, List.mem_range,
    Prod.mk.injEq]
  constructor
  · rintro ⟨y', hy', x', hx', hx, hy⟩
    subst hx
    subst hy
    exact ⟨hx', hy'⟩
  · rintro ⟨hx, hy⟩
    exact ⟨y, hy, x, hx, rfl, rfl⟩

theorem mem_row_coords {i : Nat} {c : Nat × Nat} :
    c ∈ row_coords i ↔ c.1 = i ∧ c.2 < 9 := by
  rcases c with ⟨x, y⟩
  simp only [row_coords, BOARD_DIM, List.mem_map, List.mem_range, Prod.mk.injEq]
  constructor
  · rintro ⟨y', hy', hx, hy⟩
    subst hx
    subst hy
    exact ⟨rfl, hy'⟩
  · rintro ⟨hx, hy⟩
    exact ⟨y, hy, hx.symm, rfl⟩

theorem mem_column_coords {i : Nat} {c : Nat × Nat} :
    c ∈ column_coords i ↔ c.2 = i ∧ c.1 < 9 := by
  rcases c with ⟨x, y⟩
  simp only [column_coords, BOARD_DIM, List.mem_map, List.mem_range, Prod.mk.injEq]
  constructor
  · rintro ⟨x', hx', hx, hy⟩
    subst hx
    subst hy
    exact ⟨rfl, hx'⟩
  · rintro ⟨hx, hy⟩
    exact ⟨x, hy, rfl, hx.symm⟩

theorem mem_quadrant_coords {qx qy : Nat} {c : Nat × Nat} :
    c ∈ quadrant_coords qx qy ↔ c.1 / 3 = qx ∧ c.2 / 3 = qy := by
  rcases c with ⟨x, y⟩
  simp only [quadrant_coords, QUADRANT_DIM, List.mem_flatMap, List.mem_map, List.mem_range,
    Prod.mk.injEq]
  constructor
  · rintro ⟨dy, hdy, dx, hdx, hx, hy⟩
    subst hx
    subst hy
    constructor
    · omega
    · omega
  · rintro ⟨hx, hy⟩
    refine ⟨y - qy * 3, by omega, x - qx * 3, by omega, by omega, by omega⟩

theorem scan_coords_nodup : scan_coords.Nodup := by decide

/-! Claim theorems: C4, C6, C8, and the concrete evaluations for C3 and C5. -/

/-- C4: collapsing a cell whose candidate list is empty fails with the
EmptyDomain error (the source string "Cannot collapse cell with no numbers")
and returns the board unchanged: no cell value or static flag is mutated. -/
theorem claim_C4_collapse_empty_domain (s : Sudoku) (x y rand_idx : Nat)
    (shuffle : List Sudoku → List Sudoku)
    (h : (s.board y x).value = CellValue.Uncertain []) :
    collapse_cell s x y rand_idx shuffle = (s, Except.error CollapseError.EmptyDomain) := by
  unfold collapse_cell
  rw [h]
  rfl

/-- C4 witness: cell (0, 0) of the all-blank board has an empty candidate list
and collapsing it errors without mutation. -/
theorem claim_C4_witness :
    collapse_cell blankS 0 0 0 (fun l => l) =
      (blankS, Except.error CollapseError.EmptyDomain) :=
  claim_C4_collapse_empty_domain blankS 0 0 0 (fun l => l) rfl

/-- C6 counterexample: (0, 1) is returned by row_coords 0, yet under the
(column, row) convention its row is 1, not 0 — so row_coords 0 is not the set
of coordinates sharing row 0. -/
theorem claim_C6_counterexample :
    ((0, 1) : Nat × Nat) ∈ row_coords 0 ∧ ((0, 1) : Nat × Nat).2 ≠ 0 := by
  decide

/-- C6 (amended): for every i in [0,8], row_coords i returns exactly the 9
coordinates sharing COLUMN i, and column_coords i exactly the 9 coordinates
sharing ROW i, under the (column, row) convention: the two helpers are named
the wrong way round, and their call sites compensate by swapping arguments. -/
theorem claim_C6_amended (i : Nat) (h : i < 9) :
    ((row_coords i).length = 9 ∧ (row_coords i).Nodup ∧
      ∀ c : Nat × Nat, c ∈ row_coords i ↔ c.1 = i ∧ c.2 < 9) ∧
    ((column_coords i).length = 9 ∧ (column_coords i).Nodup ∧
      ∀ c : Nat × Nat, c ∈ column_coords i ↔ c.2 = i ∧ c.1 < 9) := by
  refine ⟨⟨?_, ?_, fun c => mem_row_coords⟩, ?_, ?_, fun c => mem_column_coords⟩
  · simp [row_coords, BOARD_DIM]
  · exact ((List.nodup_range _).map (fun a b hab => by simpa using hab))
  · simp [column_coords, BOARD_DIM]
  · exact ((List.nodup_range _).map (fun a b hab => by simpa using hab))

/-- C6 amended witness at i = 0. -/
theorem claim_C6_amended_witness :
    (row_coords 0).length = 9 ∧ (column_coords 0).length = 9 :=
  ⟨(claim_C6_amended 0 (by decide)).1.1, (claim_C6_amended 0 (by decide)).2.1⟩

/-- C8: the board holding 5 in every cell is fully settled and passes the
complete check, although its first row (indeed every group) holds the value 5
more than once and the value 4 not at all: the sum-to-45 group check does not
detect duplicates compensated by omissions. -/
theorem claim_C8_sum_check_weak :
    complete allFivesS = true ∧
    scan_coords.all (fun c => (allFivesS.board c.2 c.1).value.is_certain) = true ∧
    ((List.range 9).map (fun x => (allFivesS.board 0 x).value)).count
      (CellValue.Certain 5) = 9 ∧
    CellValue.Certain 4 ∉ (List.range 9).map (fun x => (allFivesS.board 0 x).value) := by
  decide

/-- C3 counterexample: a digit at column index 9 of the first line is indexed
outside the preallocated 9x9 grid, so loading hits the Vec indexing panic
(modelled by `none`) instead of silently ignoring the position. -/
theorem claim_C3_counterexample : from_file overflowLines = none := by rfl

set_option maxRecDepth 100000 in
/-- C5: the loaded badLines board is not complete, yet its least-entropy cell
has an empty candidate domain, so a single step on a singleton frontier
removes the active board and leaves the frontier EMPTY — exactly the state the
source's `assert!(boards.len() > 0, …)` rules out, so the assertion fails. -/
theorem claim_C5_frontier_empties :
    from_file badLines = some badStart ∧
    complete badStart = false ∧
    step_frontier [badStart] 0 (fun l => l) = [] := by
  refine ⟨rfl, by decide, ?_⟩
  rfl

/-! The argmin characterization of the `find_less_entropy` fold (C7). -/

theorem findStep_fold_spec (s : Sudoku) (l : List (Nat × Nat)) :
    ∀ (i0 : Nat × Nat) (e0 : Nat) (r : (Nat × Nat) × Nat),
    l.foldl (findStep s) (i0, e0) = r →
    (r = (i0, e0) ∧ ∀ c ∈ l, ∀ k, uncLen s c = some k → e0 ≤ k) ∨
    (∃ l1 l2, l = l1 ++ r.1 :: l2 ∧
      uncLen s r.1 = some r.2 ∧ r.2 < e0 ∧
      (∀ c ∈ l1, ∀ k', uncLen s c = some k' → r.2 < k') ∧
      (∀ c ∈ l, ∀ k', uncLen s c = some k' → r.2 ≤ k')) := by
  induction l with
  | nil =>
    intro i0 e0 r h
    left
    refine ⟨h.symm, ?_⟩
    intro c hc
    exact absurd hc (List.not_mem_nil c)
  | cons c t ih =>
    intro i0 e0 r h
    rw [List.foldl_cons] at h
    rcases hv : (s.board c.2 c.1).value with n | numbers
    · -- certain cell: the accumulator is unchanged
      have hstep : findStep s (i0, e0) c = (i0, e0) := by
        simp [findStep, hv]
      rw [hstep] at h
      have hnone : uncLen s c = none := by simp [uncLen, hv]
      rcases ih i0 e0 r h with ⟨hr, hmin⟩ | ⟨l1, l2, hsplit, hunc, hlt, hpre, hall⟩
      · left
        refine ⟨hr, ?_⟩
        intro c' hc' k hk
        rcases List.mem_cons.mp hc' with hc' | hc'
        · subst hc'
          rw [hnone] at hk
          exact absurd hk (Option.noConfusion)
        · exact hmin c' hc' k hk
      · right
        refine ⟨c :: l1, l2, by rw [hsplit, List.cons_append], hunc, hlt, ?_, ?_⟩
        · intro c' hc' k' hk'
          rcases List.mem_cons.mp hc' with hc' | hc'
          · subst hc'
            rw [hnone] at hk'
            exact absurd hk' (Option.noConfusion)
          · exact hpre c' hc' k' hk'
        · intro c' hc' k' hk'
          rcases List.mem_cons.mp hc' with hc' | hc'
          · subst hc'
            rw [hnone] at hk'
            exact absurd hk' (Option.noConfusion)
          · exact hall c' hc' k' hk'
    · -- candidates cell
      have hsome : uncLen s c = some numbers.length := by simp [uncLen, hv]
      by_cases hcmp : numbers.length < e0
      · have hstep : findStep s (i0, e0) c = (c, numbers.length) := by
          simp [findStep, hv, hcmp]
        rw [hstep] at h
        rcases ih c numbers.length r h with ⟨hr, hmin⟩ | ⟨l1, l2, hsplit, hunc, hlt, hpre, hall⟩
        · right
          have hr1 : r.1 = c := by rw [hr]
          have hr2 : r.2 = numbers.length := by rw [hr]
          refine ⟨[], t, by rw [List.nil_append, hr1], ?_, ?_, ?_, ?_⟩
          · rw [hr1, hr2]
            exact hsome
          · rw [hr2]
            exact hcmp
          · intro c' hc'
            exact absurd hc' (List.not_mem_nil c')
          · intro c' hc' k' hk'
            rcases List.mem_cons.mp hc' with hc' | hc'
            · subst hc'
              rw [hsome] at hk'
              rw [hr2, Option.some_inj.mp hk']
            · rw [hr2]
              exact hmin c' hc' k' hk'
        · right
          refine ⟨c :: l1, l2, by rw [hsplit, List.cons_append], hunc, lt_trans hlt hcmp, ?_, ?_⟩
          · intro c' hc' k' hk'
            rcases List.mem_cons.mp hc' with hc' | hc'
            · subst hc'
              rw [hsome] at hk'
              rw [← Option.some_inj.mp hk']
              exact hlt
            · exact hpre c' hc' k' hk'
          · intro c' hc' k' hk'
            rcases List.mem_cons.mp hc' with hc' | hc'
            · subst hc'
              rw [hsome] at hk'
              rw [← Option.some_inj.mp hk']
              exact le_of_lt hlt
            · exact hall c' hc' k' hk'
      · have hstep : findStep s (i0, e0) c = (i0, e0) := by
          simp [findStep, hv, hcmp]
        rw [hstep] at h
        have he0 : e0 ≤ numbers.length := Nat.le_of_not_lt hcmp
        rcases ih i0 e0 r h with ⟨hr, hmin⟩ | ⟨l1, l2, hsplit, hunc, hlt, hpre, hall⟩
        · left
          refine ⟨hr, ?_⟩
          intro c' hc' k hk
          rcases List.mem_cons.mp hc' with hc' | hc'
          · subst hc'
            rw [hsome] at hk
            rw [← Option.some_inj.mp hk]
            exact he0
          · exact hmin c' hc' k hk
        · right
          refine ⟨c :: l1, l2, by rw [hsplit, List.cons_append], hunc, hlt, ?_, ?_⟩
          · intro c' hc' k' hk'
            rcases List.mem_cons.mp hc' with hc' | hc'
            · subst hc'
              rw [hsome] at hk'
              rw [← Option.some_inj.mp hk']
              exact lt_of_lt_of_le hlt he0
            · exact hpre c' hc' k' hk'
          · intro c' hc' k' hk'
            rcases List.mem_cons.mp hc' with hc' | hc'
            · subst hc'
              rw [hsome] at hk'
              rw [← Option.some_inj.mp hk']
              exact le_of_lt (lt_of_lt_of_le hlt he0)
            · exact hall c' hc' k' hk'

/-- C7: find_less_entropy scans all 81 cells in row-major order and returns
the coordinate of the first-seen candidates cell whose candidate count is
strictly smaller than all earlier candidates cells' counts (first minimum wins
ties); if the board has no candidates cell at all it returns (0, 0).  The
hypothesis states that every candidate count is below usize::MAX, which a Rust
Vec guarantees. -/
theorem claim_C7_find_less_entropy (s : Sudoku)
    (hlen : ∀ c ∈ scan_coords, (uncLen s c).getD 0 < USIZE_MAX) :
    ((∀ c ∈ scan_coords, uncLen s c = none) → find_less_entropy s = (0, 0)) ∧
    ((∃ c ∈ scan_coords, uncLen s c ≠ none) →
      ∃ k, uncLen s (find_less_entropy s) = some k ∧
        (∀ c ∈ scan_coords, ∀ k', uncLen s c = some k' → k ≤ k') ∧
        ∃ l1 l2, scan_coords = l1 ++ find_less_entropy s :: l2 ∧
          ∀ c ∈ l1, ∀ k', uncLen s c = some k' → k < k') := by
  rcases hfold : scan_coords.foldl (findStep s) ((0, 0), USIZE_MAX) with ⟨ri, re⟩
  have hspec := findStep_fold_spec s scan_coords (0, 0) USIZE_MAX (ri, re) hfold
  have hfind : find_less_entropy s = ri := by
    rw [find_less_entropy, hfold]
  rw [hfind]
  constructor
  · intro hnone
    rcases hspec with ⟨hr, _⟩ | ⟨l1, l2, hsplit, hunc, _, _, _⟩
    · rw [Prod.mk.injEq] at hr
      exact hr.1
    · exfalso
      have hmem : ri ∈ scan_coords := by
        rw [hsplit]
        exact List.mem_append_right _ (List.mem_cons_self _ _)
      rw [hnone _ hmem] at hunc
      exact Option.noConfusion hunc
  · rintro ⟨c, hc, hne⟩
    rcases hspec with ⟨_, hmin⟩ | ⟨l1, l2, hsplit, hunc, _, hpre, hall⟩
    · exfalso
      rcases ho : uncLen s c with _ | k
      · exact hne ho
      · have h1 := hmin c hc k ho
        have h2 := hlen c hc
        rw [ho] at h2
        simp only [Option.getD_some] at h2
        exact absurd h1 (Nat.not_le_of_lt h2)
    · exact ⟨re, hunc, hall, l1, l2, hsplit, hpre⟩

/-- C7 witness: the all-fives board has no candidates cell, so the scan
returns the default (0, 0). -/
theorem claim_C7_witness : find_less_entropy allFivesS = (0, 0) :=
  (claim_C7_find_less_entropy allFivesS (by decide)).1 (by decide)

/-! Helpers for the collapse success case (C1). -/

theorem map_getD_range (l : List Nat) :
    (List.range l.length).map (fun i => l.getD i 0) = l := by
  induction l with
  | nil => rfl
  | cons a t ih =>
    rw [List.length_cons, List.range_succ_eq_map, List.map_cons, List.map_map]
    have hcomp : ((fun i => (a :: t).getD i 0) ∘ Nat.succ) = fun i => t.getD i 0 := by
      funext i
      rfl
    rw [hcomp, ih]
    rfl

theorem cons_filter_ne_perm {k r : Nat} (h : r < k) :
    (r :: (List.range k).filter (fun i => i != r)).Perm (List.range k) := by
  have hmem : r ∈ List.range k := List.mem_range.mpr h
  have hperm := List.perm_cons_erase hmem
  rw [(List.nodup_range k).erase_eq_filter r] at hperm
  exact hperm.symm

/-- C1: collapsing a cell holding a nonempty duplicate-free candidate list
`nums` succeeds; the primary board is the input with that one cell settled to
`nums[rand_idx]`, each alternative board is the board-before-mutation with
that one cell settled to a different candidate, there are exactly
`nums.length - 1` alternatives, and the primary value together with the
alternative values is a permutation of the candidate list (no duplicates, no
omissions).  `rand_idx < nums.length` and the permutation property of
`shuffle` are what the source's random source guarantees. -/
theorem claim_C1_collapse_success (s : Sudoku) (x y rand_idx : Nat)
    (shuffle : List Sudoku → List Sudoku) (nums : List Nat)
    (hv : (s.board y x).value = CellValue.Uncertain nums)
    (hne : nums ≠ []) (hnd : nums.Nodup) (hr : rand_idx < nums.length)
    (hsh : ∀ l, (shuffle l).Perm l) :
    (collapse_cell s x y rand_idx shuffle).1 =
      setValue s x y (CellValue.Certain (nums.getD rand_idx 0)) ∧
    nums.getD rand_idx 0 ∈ nums ∧
    ∃ alts, (collapse_cell s x y rand_idx shuffle).2 = Except.ok alts ∧
      alts.length + 1 = nums.length ∧
      (∀ a ∈ alts, ∃ w ∈ nums, w ≠ nums.getD rand_idx 0 ∧
        a = setValue s x y (CellValue.Certain w)) ∧
      (nums.getD rand_idx 0 ::
        alts.map (fun a => ((a.board y x).value.as_vec).getD 0 0)).Perm nums := by
  have hie : nums.isEmpty = false := by
    cases nums with
    | nil => exact absurd rfl hne
    | cons a t => rfl
  have hself : ∀ w : Nat,
      setValue (setValue s x y (CellValue.Certain (nums.getD rand_idx 0))) x y
        (CellValue.Certain w) = setValue s x y (CellValue.Certain w) :=
    fun w => setValue_setValue s x y _ _
  have hres : collapse_cell s x y rand_idx shuffle =
      (setValue s x y (CellValue.Certain (nums.getD rand_idx 0)),
        Except.ok (shuffle (((List.range nums.length).filter (fun i => i != rand_idx)).map
          (fun i => setValue (setValue s x y (CellValue.Certain (nums.getD rand_idx 0))) x y
            (CellValue.Certain (nums.getD i 0)))))) := by
    unfold collapse_cell
    rw [hv]
    simp only [hie]
    rfl
  set v := nums.getD rand_idx 0 with hvdef
  have hvmem : v ∈ nums := by
    rw [hvdef, List.getD_eq_getElem nums 0 hr]
    exact List.getElem_mem hr
  set pb := ((List.range nums.length).filter (fun i => i != rand_idx)).map
    (fun i => setValue (setValue s x y (CellValue.Certain v)) x y
      (CellValue.Certain (nums.getD i 0))) with hpbdef
  have hperm : (shuffle pb).Perm pb := hsh pb
  have hpblen : pb.length + 1 = nums.length := by
    have h1 := (cons_filter_ne_perm hr).length_eq
    simp only [List.length_cons, List.length_range] at h1
    rw [hpbdef, List.length_map]
    exact h1
  refine ⟨by rw [hres], hvmem, shuffle pb, by rw [hres], ?_, ?_, ?_⟩
  · rw [hperm.length_eq]
    exact hpblen
  · intro a ha
    have hapb : a ∈ pb := hperm.mem_iff.mp ha
    rw [hpbdef] at hapb
    rcases List.mem_map.mp hapb with ⟨i, hifil, hai⟩
    have hik : i < nums.length := List.mem_range.mp (List.mem_filter.mp hifil).1
    have hine : i ≠ rand_idx := by
      have := (List.mem_filter.mp hifil).2
      simpa using this
    refine ⟨nums.getD i 0, ?_, ?_, ?_⟩
    · rw [List.getD_eq_getElem nums 0 hik]
      exact List.getElem_mem hik
    · rw [hvdef, List.getD_eq_getElem nums 0 hik, List.getD_eq_getElem nums 0 hr]
      intro hcontra
      exact hine (hnd.getElem_inj_iff.mp hcontra)
    · rw [← hai, hself]
  · have hmapval : pb.map (fun a => ((a.board y x).value.as_vec).getD 0 0) =
        ((List.range nums.length).filter (fun i => i != rand_idx)).map
          (fun i => nums.getD i 0) := by
      rw [hpbdef, List.map_map]
      apply List.map_congr_left
      intro i _
      simp only [Function.comp_apply, setValue_same, CellValue.as_vec]
      rfl
    have hchain : (v :: ((List.range nums.length).filter (fun i => i != rand_idx)).map
        (fun i => nums.getD i 0)).Perm nums := by
      have h1 := (cons_filter_ne_perm hr).map (fun i => nums.getD i 0)
      rw [List.map_cons] at h1
      rw [map_getD_range nums] at h1
      exact h1
    have h0 : (v :: (shuffle pb).map (fun a => ((a.board y x).value.as_vec).getD 0 0)).Perm
        (v :: pb.map (fun a => ((a.board y x).value.as_vec).getD 0 0)) :=
      (hperm.map _).cons v
    rw [hmapval] at h0
    exact h0.trans hchain

/-- C1 witness: collapsing the cell (0, 0) of a board whose candidates there
are 1, 2, 3, with random index 0 and identity shuffle, settles the primary
board to the first candidate. -/
theorem claim_C1_witness :
    (collapse_cell demoC1 0 0 0 (fun l => l)).1 =
      setValue demoC1 0 0 (CellValue.Certain ([1, 2, 3].getD 0 0)) :=
  (claim_C1_collapse_success demoC1 0 0 0 (fun l => l) [1, 2, 3] rfl
    (by decide) (by decide) (by decide) (fun l => List.Perm.refl l)).1

/-! The candidate recomputation (C2): the erase loop computes a filter. -/

theorem removeVal_eq_erase (pv : List Nat) (num : Nat) : removeVal pv num = pv.erase num := by
  induction pv with
  | nil => rfl
  | cons a t ih =>
    unfold removeVal
    rw [List.erase_cons, List.findIdx?_cons]
    by_cases ha : (a == num) = true
    · simp only [ha, if_true, ite_true]
      rfl
    · have hb : (a == num) = false := by
        cases h2 : (a == num)
        · rfl
        · exact absurd h2 ha
      rw [hb, if_neg Bool.false_ne_true, if_neg Bool.false_ne_true, List.findIdx?_succ]
      cases hfi : t.findIdx? (fun v => v == num) with
      | none =>
        unfold removeVal at ih
        rw [hfi] at ih
        exact congrArg (List.cons a) ih
      | some i =>
        unfold removeVal at ih
        rw [hfi] at ih
        exact congrArg (List.cons a) ih

theorem computeCands_eq_erase_fold (s : Sudoku) (x y : Nat) :
    computeCands s x y = List.foldl List.erase initialCands (certListAt s (peers_coords x y)) := by
  rw [computeCands]
  generalize peers_coords x y = coords
  generalize initialCands = pv
  induction coords generalizing pv with
  | nil => rfl
  | cons c t ih =>
    rw [List.foldl_cons]
    rcases hv : (s.board c.2 c.1).value with n | numbers
    · have hc : certListAt s (c :: t) = n :: certListAt s t := by
        rw [certListAt, List.filterMap_cons_some (by rw [hv]; rfl)]
        rfl
      rw [hc, List.foldl_cons, ← removeVal_eq_erase]
      simp only [hv]
      exact ih _
    · have hc : certListAt s (c :: t) = certListAt s t := by
        rw [certListAt, List.filterMap_cons_none (by rw [hv]; rfl)]
        rfl
      rw [hc]
      simp only [hv]
      exact ih _

theorem erase_fold_eq_filter (vals : List Nat) :
    ∀ (pv : List Nat), pv.Nodup →
      List.foldl List.erase pv vals = pv.filter (fun v => !(vals.contains v)) := by
  induction vals with
  | nil =>
    intro pv _
    simp
  | cons w vals ih =>
    intro pv hnd
    rw [List.foldl_cons, ih (pv.erase w) (hnd.erase w), hnd.erase_eq_filter w,
      List.filter_filter]
    apply List.filter_congr
    intro v _
    cases hv1 : vals.contains v <;> cases hv2 : v == w <;>
      simp_all [List.contains_cons, bne, beq_iff_eq]

/-- On in-bounds coordinates, membership in the chained peer list is exactly
sharing a row, column or quadrant (with both components in bounds). -/
theorem mem_peers_coords {x y : Nat} (hx : x < 9) (hy : y < 9) {c : Nat × Nat} :
    c ∈ peers_coords x y ↔ same_group x y c.1 c.2 = true ∧ c.1 < 9 ∧ c.2 < 9 := by
  rw [peers_coords, List.append_assoc, List.mem_append, List.mem_append,
    mem_quadrant_coords, mem_row_coords, mem_column_coords]
  rw [same_group]
  simp only [QUADRANT_DIM, Bool.or_eq_true, Bool.and_eq_true, beq_iff_eq]
  omega

theorem initialCands_eq : initialCands = [1, 2, 3, 4, 5, 6, 7, 8, 9] := by decide

theorem computeCands_eq_specCands (s : Sudoku) {x y : Nat} (hx : x < 9) (hy : y < 9) :
    computeCands s x y = specCands s x y := by
  rw [computeCands_eq_erase_fold, erase_fold_eq_filter _ _ (by decide), specCands]
  apply List.filter_congr
  intro v _
  have hiff : (certListAt s (peers_coords x y)).contains v = true ↔
      fixed_among_peers s x y v = true := by
    rw [certListAt, fixed_among_peers, List.contains_iff_exists_mem_beq, List.any_eq_true]
    constructor
    · rintro ⟨w, hw, hbeq⟩
      rcases List.mem_filterMap.mp hw with ⟨c, hc, hcv⟩
      rcases (mem_peers_coords hx hy).mp hc with ⟨hsg, hc1, hc2⟩
      refine ⟨c, mem_scan_coords.mpr ⟨hc1, hc2⟩, ?_⟩
      rw [Bool.and_eq_true, beq_iff_eq]
      refine ⟨hsg, ?_⟩
      rw [hcv]
      have : v = w := by
        have := beq_iff_eq.mp hbeq
        exact this
      rw [this]
    · rintro ⟨c, hc, hand⟩
      rw [Bool.and_eq_true, beq_iff_eq] at hand
      rcases hand with ⟨hsg, hcv⟩
      rcases mem_scan_coords.mp hc with ⟨hc1, hc2⟩
      refine ⟨v, ?_, beq_self_eq_true v⟩
      exact List.mem_filterMap.mpr ⟨c, (mem_peers_coords hx hy).mpr ⟨hsg, hc1, hc2⟩, hcv⟩
  have hcb : (certListAt s (peers_coords x y)).contains v = fixed_among_peers s x y v := by
    cases hb : fixed_among_peers s x y v with
    | true => exact hiff.mpr hb
    | false =>
      cases hcb2 : (certListAt s (peers_coords x y)).contains v with
      | false => rfl
      | true => exact absurd (hiff.mp hcb2) (by simp [hb])
  rw [hcb]

/-! The board-wide recomputation pass (C2 continued). -/

theorem bool_not_true {b : Bool} (h : ¬b = true) : b = false := by
  cases b
  · rfl
  · exact absurd rfl h

theorem upd_cell_skip {s : Sudoku} {a b : Nat}
    (h : ((s.board b a).is_static || (s.board b a).value.is_certain) = true) :
    update_possible_cell_values s a b = s := by
  rw [update_possible_cell_values, if_pos h]

theorem upd_cell_write {s : Sudoku} {a b : Nat}
    (h : ((s.board b a).is_static || (s.board b a).value.is_certain) = false) :
    update_possible_cell_values s a b =
      setValue s a b (CellValue.Uncertain (computeCands s a b)) := by
  rw [update_possible_cell_values, if_neg (by rw [h]; exact Bool.false_ne_true)]

theorem upd_cell_other {s : Sudoku} {a b y x : Nat} (h : ¬(y = b ∧ x = a)) :
    (update_possible_cell_values s a b).board y x = s.board y x := by
  by_cases hc : ((s.board b a).is_static || (s.board b a).value.is_certain) = true
  · rw [upd_cell_skip hc]
  · rw [upd_cell_write (bool_not_true hc), setValue_other _ _ _ _ h]

theorem upd_cell_static_flag (s : Sudoku) (a b y x : Nat) :
    ((update_possible_cell_values s a b).board y x).is_static = (s.board y x).is_static := by
  by_cases hc : ((s.board b a).is_static || (s.board b a).value.is_certain) = true
  · rw [upd_cell_skip hc]
  · rw [upd_cell_write (bool_not_true hc), setValue_is_static]

theorem upd_cell_certVal (s : Sudoku) (a b y x : Nat) :
    certVal ((update_possible_cell_values s a b).board y x).value =
      certVal ((s.board y x).value) := by
  by_cases hc : ((s.board b a).is_static || (s.board b a).value.is_certain) = true
  · rw [upd_cell_skip hc]
  · rw [upd_cell_write (bool_not_true hc)]
    by_cases h2 : (y = b ∧ x = a)
    · rcases h2 with ⟨hy, hx⟩
      subst hy
      subst hx
      rw [setValue_same]
      rcases hv : (s.board y x).value with n | l
      · exfalso
        rw [Bool.or_eq_true] at hc
        exact hc (Or.inr (by rw [hv]; rfl))
      · rfl
    · rw [setValue_other _ _ _ _ h2]

theorem upd_fold_static_flag (l : List (Nat × Nat)) :
    ∀ (s : Sudoku) (y x : Nat),
    ((l.foldl (fun s c => update_possible_cell_values s c.1 c.2) s).board y x).is_static =
      (s.board y x).is_static := by
  induction l with
  | nil => intro s y x; rfl
  | cons c t ih =>
    intro s y x
    rw [List.foldl_cons, ih, upd_cell_static_flag]

theorem upd_fold_certVal (l : List (Nat × Nat)) :
    ∀ (s : Sudoku) (y x : Nat),
    certVal ((l.foldl (fun s c => update_possible_cell_values s c.1 c.2) s).board y x).value =
      certVal ((s.board y x).value) := by
  induction l with
  | nil => intro s y x; rfl
  | cons c t ih =>
    intro s y x
    rw [List.foldl_cons, ih, upd_cell_certVal]

theorem upd_fold_not_mem (l : List (Nat × Nat)) :
    ∀ (s : Sudoku) {x y : Nat}, (x, y) ∉ l →
    (l.foldl (fun s c => update_possible_cell_values s c.1 c.2) s).board y x =
      s.board y x := by
  induction l with
  | nil => intro s x y _; rfl
  | cons c t ih =>
    intro s x y h
    have h1 : (x, y) ≠ c := fun he => h (he ▸ List.mem_cons_self c t)
    have h2 : (x, y) ∉ t := fun hm => h (List.mem_cons_of_mem c hm)
    have hne : ¬(y = c.2 ∧ x = c.1) := by
      rintro ⟨hy, hx⟩
      apply h1
      rw [hx, hy, Prod.mk.eta]
    rw [List.foldl_cons, ih _ h2, upd_cell_other hne]

theorem upd_fold_frozen (l : List (Nat × Nat)) :
    ∀ (s : Sudoku) {x y : Nat},
    ((s.board y x).is_static = true ∨ (s.board y x).value.is_certain = true) →
    (l.foldl (fun s c => update_possible_cell_values s c.1 c.2) s).board y x =
      s.board y x := by
  induction l with
  | nil => intro s x y _; rfl
  | cons c t ih =>
    intro s x y h
    have hstep : (update_possible_cell_values s c.1 c.2).board y x = s.board y x := by
      by_cases hc2 : (y = c.2 ∧ x = c.1)
      · rcases hc2 with ⟨hy, hx⟩
        have hcond : ((s.board c.2 c.1).is_static ||
            (s.board c.2 c.1).value.is_certain) = true := by
          rw [← hy, ← hx, Bool.or_eq_true]
          exact h
        rw [upd_cell_skip hcond]
      · exact upd_cell_other hc2
    have h' : ((update_possible_cell_values s c.1 c.2).board y x).is_static = true ∨
        ((update_possible_cell_values s c.1 c.2).board y x).value.is_certain = true := by
      rw [hstep]
      exact h
    rw [List.foldl_cons, ih _ h', hstep]

theorem specCands_congr {s t : Sudoku}
    (h : ∀ c : Nat × Nat, certVal ((s.board c.2 c.1).value) = certVal ((t.board c.2 c.1).value))
    (x y : Nat) : specCands s x y = specCands t x y := by
  rw [specCands, specCands]
  have hpred : ∀ v, fixed_among_peers s x y v = fixed_among_peers t x y v := by
    intro v
    rw [fixed_among_peers, fixed_among_peers]
    have : (fun c : Nat × Nat =>
        same_group x y c.1 c.2 && (certVal (s.board c.2 c.1).value == some v)) =
        (fun c : Nat × Nat =>
        same_group x y c.1 c.2 && (certVal (t.board c.2 c.1).value == some v)) := by
      funext c
      rw [h c]
    rw [this]
  apply List.filter_congr
  intro v _
  rw [hpred v]

theorem upd_fold_visits (l : List (Nat × Nat)) :
    ∀ (s : Sudoku) {x y : Nat}, (x, y) ∈ l → x < 9 → y < 9 →
    (s.board y x).is_static = false → (s.board y x).value.is_certain = false →
    ((l.foldl (fun s c => update_possible_cell_values s c.1 c.2) s).board y x).value =
      CellValue.Uncertain (specCands s x y) := by
  induction l with
  | nil =>
    intro s x y hmem
    exact absurd hmem (List.not_mem_nil _)
  | cons c t ih =>
    intro s x y hmem hx hy hst hce
    have hcond : ((s.board y x).is_static || (s.board y x).value.is_certain) = false := by
      rw [hst, hce]
      rfl
    by_cases hc : c = (x, y)
    · subst hc
      have hwrite : update_possible_cell_values s x y =
          setValue s x y (CellValue.Uncertain (computeCands s x y)) :=
        upd_cell_write hcond
      rw [List.foldl_cons]
      show ((t.foldl (fun s c => update_possible_cell_values s c.1 c.2)
        (update_possible_cell_values s x y)).board y x).value =
          CellValue.Uncertain (specCands s x y)
      rw [hwrite]
      by_cases hmem2 : ((x, y) : Nat × Nat) ∈ t
      · have hst2 : ((setValue s x y
            (CellValue.Uncertain (computeCands s x y))).board y x).is_static = false := by
          rw [setValue_same]
          exact hst
        have hce2 : ((setValue s x y
            (CellValue.Uncertain (computeCands s x y))).board y x).value.is_certain
            = false := by
          rw [setValue_same]
          rfl
        have := ih _ hmem2 hx hy hst2 hce2
        rw [this]
        have hcongr := specCands_congr (s := setValue s x y
            (CellValue.Uncertain (computeCands s x y))) (t := s) ?_ x y
        · rw [hcongr]
        · intro cc
          by_cases hcc : (cc.2 = y ∧ cc.1 = x)
          · rcases hcc with ⟨h1, h2⟩
            rw [h1, h2, setValue_same]
            rcases hv : (s.board y x).value with n | ll
            · exfalso
              rw [hv] at hce
              exact Bool.true_eq_false ▸ hce
            · rfl
          · rw [setValue_other _ _ _ _ hcc]
      · rw [upd_fold_not_mem t _ hmem2, setValue_same]
        rw [computeCands_eq_specCands s hx hy]
    · have hmem' : ((x, y) : Nat × Nat) ∈ t := by
        rcases List.mem_cons.mp hmem with h | h
        · exact absurd h.symm hc
        · exact h
      have hne : ¬(y = c.2 ∧ x = c.1) := by
        rintro ⟨hy2, hx2⟩
        apply hc
        rw [hx2, hy2]
      have hstep : (update_possible_cell_values s c.1 c.2).board y x = s.board y x :=
        upd_cell_other hne
      rw [List.foldl_cons]
      have := ih (update_possible_cell_values s c.1 c.2) (x := x) (y := y) hmem' hx hy
        (by rw [hstep]; exact hst) (by rw [hstep]; exact hce)
      rw [this]
      have hcongr := specCands_congr
        (s := update_possible_cell_values s c.1 c.2) (t := s) (fun cc => upd_cell_certVal s c.1 c.2 cc.2 cc.1) x y
      rw [hcongr]

/-! Invariants of loading (used by C2, C9, C10). -/

theorem foldlM_opt_invariant {α : Type} (P : Sudoku → Prop)
    (f : Sudoku → α → Option Sudoku)
    (hf : ∀ s a t, P s → f s a = some t → P t) :
    ∀ (l : List α) (s t : Sudoku), P s → l.foldlM f s = some t → P t := by
  intro l
  induction l with
  | nil =>
    intro s t hP h
    rw [List.foldlM_nil] at h
    exact (Option.some_inj.mp h) ▸ hP
  | cons a l ih =>
    intro s t hP h
    rw [List.foldlM_cons] at h
    cases hfa : f s a with
    | none =>
      rw [hfa] at h
      exact Option.noConfusion h
    | some s1 =>
      rw [hfa] at h
      exact ih s1 t (hf s a s1 hP hfa) h

theorem writeCell_ok {s t : Sudoku} {x y num : Nat} (hP : loadedCellOK s)
    (h : writeCell s x y num = some t) : loadedCellOK t := by
  rw [writeCell] at h
  by_cases hb : (y < BOARD_DIM ∧ x < BOARD_DIM)
  · rw [if_pos hb] at h
    rcases Option.some_inj.mp h with rfl
    intro yy xx
    by_cases hxy : (yy = y ∧ xx = x)
    · right
      exact ⟨num, by simp [hxy]⟩
    · have := hP yy xx
      simpa [hxy] using this
  · rw [if_neg hb] at h
    exact Option.noConfusion h

theorem from_file_cells {ls : List (List Char)} {s : Sudoku}
    (h : from_file ls = some s) : loadedCellOK s := by
  rw [from_file] at h
  refine foldlM_opt_invariant loadedCellOK _ ?_ ls.enum blankS s ?_ h
  · intro s1 yl t hP hstep
    refine foldlM_opt_invariant loadedCellOK _ ?_ yl.2.enum s1 t hP hstep
    intro s2 xc t2 hP2 hstep2
    cases hpd : parse_digit xc.2 with
    | none =>
      rw [hpd] at hstep2
      exact (Option.some_inj.mp hstep2) ▸ hP2
    | some num =>
      rw [hpd] at hstep2
      exact writeCell_ok hP2 hstep2
  · intro yy xx
    left
    rfl

theorem loaded_static_certain {s : Sudoku} (h : loadedCellOK s) {y x : Nat}
    (hst : (s.board y x).is_static = true) :
    ∃ d, (s.board y x).value = CellValue.Certain d := by
  rcases h y x with hbl | ⟨d, hd⟩
  · rw [hbl] at hst
    exact absurd hst (by simp [blankCell])
  · exact ⟨d, by rw [hd]⟩

/-- C2: after a full recomputation pass on a loaded board, (a) static or
settled cells are untouched, (b) every other cell's candidate list is exactly
{1..9} minus every settled value among its row, column and quadrant, and (c)
consequently no settled cell's value appears among the candidates of any
candidates cell sharing its row, column or quadrant. -/
theorem claim_C2_recompute (ls : List (List Char)) (b : Sudoku)
    (hload : from_file ls = some b) :
    (∀ x y, x < 9 → y < 9 →
      ((b.board y x).is_static = true ∨ (b.board y x).value.is_certain = true) →
      (update_possible_values b).board y x = b.board y x) ∧
    (∀ x y, x < 9 → y < 9 →
      (b.board y x).is_static = false → (b.board y x).value.is_certain = false →
      ((update_possible_values b).board y x).value =
        CellValue.Uncertain (specCands b x y)) ∧
    (∀ x y fx fy v l, x < 9 → y < 9 → fx < 9 → fy < 9 →
      same_group x y fx fy = true →
      ((update_possible_values b).board fy fx).value = CellValue.Certain v →
      ((update_possible_values b).board y x).value = CellValue.Uncertain l →
      v ∉ l) := by
  have hcells := from_file_cells hload
  unfold update_possible_values
  refine ⟨?_, ?_, ?_⟩
  · intro x y _ _ h
    exact upd_fold_frozen scan_coords b h
  · intro x y hx hy hst hce
    exact upd_fold_visits scan_coords b (mem_scan_coords.mpr ⟨hx, hy⟩) hx hy hst hce
  · intro x y fx fy v l hx hy hfx hfy hsg hcert hunc
    have h2 := upd_fold_certVal scan_coords b fy fx
    rw [hcert] at h2
    have hcv : certVal ((b.board fy fx).value) = some v := by
      rw [← h2]
      rfl
    have h3 := upd_fold_certVal scan_coords b y x
    rw [hunc] at h3
    have hcvx : certVal ((b.board y x).value) = none := by
      rw [← h3]
      rfl
    rcases hbv : (b.board y x).value with n | bl
    · rw [hbv] at hcvx
      exact absurd hcvx (by simp [certVal])
    · have hst : (b.board y x).is_static = false := by
        cases hflag : (b.board y x).is_static with
        | false => rfl
        | true =>
          rcases loaded_static_certain hcells hflag with ⟨d, hd⟩
          rw [hbv] at hd
          exact CellValue.noConfusion hd
      have hce : (b.board y x).value.is_certain = false := by
        rw [hbv]
        rfl
      have hval := upd_fold_visits scan_coords b (mem_scan_coords.mpr ⟨hx, hy⟩) hx hy hst hce
      rw [hunc] at hval
      have hl : l = specCands b x y := by
        injection hval
      rw [hl]
      intro hvmem
      rcases List.mem_filter.mp hvmem with ⟨_, hpred⟩
      have hfp : fixed_among_peers b x y v = true := by
        rw [fixed_among_peers, List.any_eq_true]
        refine ⟨(fx, fy), mem_scan_coords.mpr ⟨hfx, hfy⟩, ?_⟩
        rw [Bool.and_eq_true, beq_iff_eq]
        exact ⟨hsg, hcv⟩
      rw [hfp] at hpred
      exact absurd hpred Bool.false_ne_true

/-- C2 witness: on the loaded one-digit demo board, the recomputed candidates
of the blank cell (5, 5) are exactly the spec set. -/
theorem claim_C2_witness :
    ((update_possible_values demoB).board 5 5).value =
      CellValue.Uncertain (specCands demoB 5 5) :=
  (claim_C2_recompute demoLines demoB rfl).2.1 5 5 (by decide) (by decide)
    (by decide) (by decide)

/-! The parsing loop of `from_file` (C3 amended). -/

theorem parse_digit_isDigit {c : Char} {num : Nat} (h : parse_digit c = some num) :
    c.isDigit = true := by
  rw [parse_digit] at h
  by_cases hd : c.isDigit = true
  · exact hd
  · rw [if_neg hd] at h
    exact Option.noConfusion h

theorem lineDigit_cons (c : Char) (cst : List Char) (x0 X : Nat) :
    lineDigit (c :: cst) x0 X =
      if X = x0 then parse_digit c else lineDigit cst (x0 + 1) X := by
  unfold lineDigit
  by_cases h1 : X = x0
  · rw [if_pos h1, if_pos (by omega)]
    subst h1
    rw [Nat.sub_self]
    rfl
  · rw [if_neg h1]
    by_cases h2 : x0 ≤ X
    · rw [if_pos h2, if_pos (by omega)]
      have h4 : X - x0 = (X - (x0 + 1)) + 1 := by omega
      rw [h4]
      rfl
    · rw [if_neg h2, if_neg (by omega)]

theorem rowsDigit_cons (line : List Char) (rest : List (List Char)) (y0 X Y : Nat) :
    rowsDigit (line :: rest) y0 X Y =
      if Y = y0 then lineDigit line 0 X else rowsDigit rest (y0 + 1) X Y := by
  unfold rowsDigit
  by_cases h1 : Y = y0
  · rw [if_pos h1, if_pos (by omega)]
    subst h1
    rw [Nat.sub_self]
    rfl
  · rw [if_neg h1]
    by_cases h2 : y0 ≤ Y
    · rw [if_pos h2, if_pos (by omega)]
      have h4 : Y - y0 = (Y - (y0 + 1)) + 1 := by omega
      rw [h4]
      rfl
    · rw [if_neg h2, if_neg (by omega)]

theorem line_fold_char (cs : List Char) :
    ∀ (x0 y : Nat) (s : Sudoku),
    (∀ xc ∈ cs.enumFrom x0, xc.2.isDigit = true → xc.1 < 9 ∧ y < 9) →
    ∃ t, (cs.enumFrom x0).foldlM (lineStep y) s = some t ∧
      ∀ X Y, t.board Y X =
        (match (if Y = y then lineDigit cs x0 X else none) with
         | some d => ⟨CellValue.Certain d, true⟩
         | none => s.board Y X) := by
  induction cs with
  | nil =>
    intro x0 y s _
    refine ⟨s, rfl, ?_⟩
    intro X Y
    have hnone : (if Y = y then lineDigit [] x0 X else none) = none := by
      by_cases h : Y = y
      · rw [if_pos h, lineDigit]
        by_cases h2 : x0 ≤ X
        · rw [if_pos h2]
          rfl
        · rw [if_neg h2]
      · rw [if_neg h]
    rw [hnone]
  | cons c cst ih =>
    intro x0 y s hbnd
    rw [List.enumFrom_cons, List.foldlM_cons]
    have hbnd' : ∀ xc ∈ cst.enumFrom (x0 + 1), xc.2.isDigit = true → xc.1 < 9 ∧ y < 9 :=
      fun xc hm => hbnd xc (List.mem_cons_of_mem _ hm)
    cases hpd : parse_digit c with
    | none =>
      have hstep : lineStep y s (x0, c) = some s := by
        rw [lineStep, hpd]
      rw [hstep]
      rcases ih (x0 + 1) y s hbnd' with ⟨t, hfold, hchar⟩
      refine ⟨t, hfold, ?_⟩
      intro X Y
      rw [hchar X Y]
      have hsc : (if Y = y then lineDigit cst (x0 + 1) X else none) =
          (if Y = y then lineDigit (c :: cst) x0 X else none) := by
        by_cases hY : Y = y
        · rw [if_pos hY, if_pos hY, lineDigit_cons]
          by_cases hX : X = x0
          · rw [if_pos hX, hpd]
            subst hX
            rw [lineDigit, if_neg (by omega)]
          · rw [if_neg hX]
        · rw [if_neg hY, if_neg hY]
      rw [hsc]
    | some num =>
      have hdig : c.isDigit = true := parse_digit_isDigit hpd
      obtain ⟨hx0, hy⟩ := hbnd (x0, c) (List.mem_cons_self _ _) hdig
      have hw : writeCell s x0 y num = some ⟨fun y' x' =>
          if y' = y ∧ x' = x0 then ⟨CellValue.Certain num, true⟩ else s.board y' x'⟩ := by
        rw [writeCell, if_pos ⟨hy, hx0⟩]
      have hstep : lineStep y s (x0, c) = some (⟨fun y' x' =>
          if y' = y ∧ x' = x0 then ⟨CellValue.Certain num, true⟩
          else s.board y' x'⟩ : Sudoku) := by
        rw [lineStep, hpd]
        exact hw
      rw [hstep]
      rcases ih (x0 + 1) y (⟨fun y' x' =>
          if y' = y ∧ x' = x0 then ⟨CellValue.Certain num, true⟩
          else s.board y' x'⟩ : Sudoku) hbnd' with ⟨t, hfold, hchar⟩
      refine ⟨t, hfold, ?_⟩
      intro X Y
      rw [hchar X Y]
      have hb : (⟨fun y' x' => if y' = y ∧ x' = x0 then ⟨CellValue.Certain num, true⟩
          else s.board y' x'⟩ : Sudoku).board Y X =
          if Y = y ∧ X = x0 then ⟨CellValue.Certain num, true⟩ else s.board Y X := rfl
      rw [hb, lineDigit_cons]
      by_cases hY : Y = y
      · rw [if_pos hY, if_pos hY]
        by_cases hX : X = x0
        · rw [if_pos hX]
          rw [hpd]
          have h5 : lineDigit cst (x0 + 1) X = none := by
            rw [lineDigit, if_neg (by omega)]
          rw [h5]
          rw [if_pos ⟨hY, hX⟩]
        · rw [if_neg hX, if_neg (fun hand => hX hand.2)]
      · rw [if_neg hY, if_neg hY, if_neg (fun hand => hY hand.1)]

theorem rows_fold_char (rest : List (List Char)) :
    ∀ (y0 : Nat) (s : Sudoku),
    (∀ yl ∈ rest.enumFrom y0, ∀ xc ∈ yl.2.enum, xc.2.isDigit = true → xc.1 < 9 ∧ yl.1 < 9) →
    ∃ t, (rest.enumFrom y0).foldlM rowStep s = some t ∧
      ∀ X Y, t.board Y X =
        (match rowsDigit rest y0 X Y with
         | some d => ⟨CellValue.Certain d, true⟩
         | none => s.board Y X) := by
  induction rest with
  | nil =>
    intro y0 s _
    refine ⟨s, rfl, ?_⟩
    intro X Y
    have hnone : rowsDigit [] y0 X Y = none := by
      rw [rowsDigit]
      by_cases h2 : y0 ≤ Y
      · rw [if_pos h2]
        rfl
      · rw [if_neg h2]
    rw [hnone]
  | cons line rest ih =>
    intro y0 s hbnd
    rw [List.enumFrom_cons, List.foldlM_cons]
    have hline : ∀ xc ∈ line.enumFrom 0, xc.2.isDigit = true → xc.1 < 9 ∧ y0 < 9 :=
      fun xc hm hd => hbnd (y0, line) (List.mem_cons_self _ _) xc hm hd
    rcases line_fold_char line 0 y0 s hline with ⟨s1, hfold1, hchar1⟩
    have hrs : rowStep s (y0, line) = some s1 := hfold1
    rw [hrs]
    have hbnd' : ∀ yl ∈ rest.enumFrom (y0 + 1), ∀ xc ∈ yl.2.enum,
        xc.2.isDigit = true → xc.1 < 9 ∧ yl.1 < 9 :=
      fun yl hm => hbnd yl (List.mem_cons_of_mem _ hm)
    rcases ih (y0 + 1) s1 hbnd' with ⟨t, hfold2, hchar2⟩
    refine ⟨t, hfold2, ?_⟩
    intro X Y
    rw [hchar2 X Y, rowsDigit_cons]
    by_cases hY : Y = y0
    · rw [if_pos hY]
      have h5 : rowsDigit rest (y0 + 1) X Y = none := by
        rw [rowsDigit, if_neg (by omega)]
      rw [h5]
      show s1.board Y X = _
      rw [hchar1 X Y, if_pos hY]
    · rw [if_neg hY]
      cases hrd : rowsDigit rest (y0 + 1) X Y with
      | none =>
        show s1.board Y X = _
        rw [hchar1 X Y, if_neg hY]
      | some d => rfl

theorem digitAt_eq_rowsDigit (ls : List (List Char)) (x y : Nat) :
    digitAt ls x y = rowsDigit ls 0 x y := by
  rw [digitAt, rowsDigit, if_pos (Nat.zero_le y), Nat.sub_zero]
  cases hg : ls.get? y with
  | none => rfl
  | some line =>
    simp only [Option.some_bind]
    rw [lineDigit, if_pos (Nat.zero_le x), Nat.sub_zero]

/-- C3 (amended): loading ignores non-digit characters everywhere (also beyond
the 9x9 bound) and, whenever every decimal digit of the input lies inside the
9x9 bound, succeeds with the board whose cell (x, y) is a static settled digit
exactly when the input holds a digit there and the preallocated blank cell
otherwise.  (A digit outside the bound instead hits the index panic — see the
counterexample.) -/
theorem claim_C3_amended (ls : List (List Char))
    (h : ∀ yl ∈ ls.enum, ∀ xc ∈ yl.2.enum, xc.2.isDigit = true → xc.1 < 9 ∧ yl.1 < 9) :
    ∃ t, from_file ls = some t ∧ ∀ x y, t.board y x = loadCellSpec ls x y := by
  rcases rows_fold_char ls 0 blankS h with ⟨t, hfold, hchar⟩
  refine ⟨t, hfold, ?_⟩
  intro x y
  rw [hchar x y, loadCellSpec, digitAt_eq_rowsDigit]
  cases hrd : rowsDigit ls 0 x y with
  | none => rfl
  | some d => rfl

/-- C3 amended witness: the demo input has all its digits in bounds, so
loading succeeds. -/
theorem claim_C3_amended_witness : (from_file demoLines).isSome = true := by
  rcases claim_C3_amended demoLines (by decide) with ⟨t, ht, _⟩
  rw [ht]
  rfl

/-! Collapse and reset, cell by cell (towards C9 and C10). -/

theorem collapse_fst_cases (s : Sudoku) (x y r : Nat) (sh : List Sudoku → List Sudoku) :
    (collapse_cell s x y r sh).1 = s ∨
    ∃ v, (s.board y x).value.is_certain = false ∧
      (collapse_cell s x y r sh).1 = setValue s x y (CellValue.Certain v) := by
  rcases hv : (s.board y x).value with n | nums
  · left
    unfold collapse_cell
    rw [hv]
  · by_cases hne : nums.isEmpty = true
    · left
      unfold collapse_cell
      rw [hv]
      simp only [hne, if_true, ite_true]
    · right
      refine ⟨nums.getD r 0, by simp [hv, CellValue.is_certain], ?_⟩
      unfold collapse_cell
      rw [hv]
      simp only [bool_not_true hne, Bool.false_eq_true, if_false, ite_false]

theorem reset_step_board (s : Sudoku) (c : Nat × Nat) (Y X : Nat) :
    ((if (s.board c.2 c.1).is_static then s
      else setValue s c.1 c.2 (CellValue.Uncertain [])).board Y X) =
      (if ((X, Y) : Nat × Nat) = c ∧ (s.board Y X).is_static = false
       then ⟨CellValue.Uncertain [], (s.board Y X).is_static⟩ else s.board Y X) := by
  by_cases hs : (s.board c.2 c.1).is_static = true
  · rw [if_pos hs]
    by_cases hc : ((X, Y) : Nat × Nat) = c ∧ (s.board Y X).is_static = false
    · exfalso
      rcases hc with ⟨hc1, hc2⟩
      rw [← hc1] at hs
      rw [hs] at hc2
      exact Bool.noConfusion hc2
    · rw [if_neg hc]
  · rw [if_neg hs]
    by_cases hc2 : (Y = c.2 ∧ X = c.1)
    · rw [setValue_board, if_pos hc2]
      have hcp : ((X, Y) : Nat × Nat) = c := by
        rcases hc2 with ⟨h1, h2⟩
        rw [h1, h2]
      have hflag : (s.board Y X).is_static = false := by
        rcases hc2 with ⟨h1, h2⟩
        rw [h1, h2]
        exact bool_not_true hs
      rw [if_pos ⟨hcp, hflag⟩]
    · rw [setValue_board, if_neg hc2]
      have hcp : ¬(((X, Y) : Nat × Nat) = c ∧ (s.board Y X).is_static = false) := by
        rintro ⟨hc1, _⟩
        apply hc2
        rw [← hc1]
        exact ⟨rfl, rfl⟩
      rw [if_neg hcp]

theorem reset_fold_board (l : List (Nat × Nat)) :
    ∀ (s : Sudoku) (Y X : Nat),
    ((l.foldl (fun s c => if (s.board c.2 c.1).is_static then s
        else setValue s c.1 c.2 (CellValue.Uncertain [])) s).board Y X) =
      (if ((X, Y) : Nat × Nat) ∈ l ∧ (s.board Y X).is_static = false
       then ⟨CellValue.Uncertain [], (s.board Y X).is_static⟩ else s.board Y X) := by
  induction l with
  | nil =>
    intro s Y X
    rw [List.foldl_nil, if_neg]
    rintro ⟨hm, _⟩
    exact List.not_mem_nil _ hm
  | cons c t ih =>
    intro s Y X
    rw [List.foldl_cons, ih]
    have hflag : ((if (s.board c.2 c.1).is_static then s
        else setValue s c.1 c.2 (CellValue.Uncertain [])).board Y X).is_static =
        (s.board Y X).is_static := by
      rw [reset_step_board]
      by_cases hc : ((X, Y) : Nat × Nat) = c ∧ (s.board Y X).is_static = false
      · rw [if_pos hc]
      · rw [if_neg hc]
    by_cases hm : ((X, Y) : Nat × Nat) ∈ t ∧ (s.board Y X).is_static = false
    · rw [if_pos (by rw [hflag]; exact ⟨hm.1, hm.2⟩), hflag,
        if_pos ⟨List.mem_cons_of_mem c hm.1, hm.2⟩]
    · rw [if_neg (by rw [hflag]; exact hm), reset_step_board]
      by_cases hc : ((X, Y) : Nat × Nat) = c ∧ (s.board Y X).is_static = false
      · rw [if_pos hc, if_pos ⟨hc.1 ▸ List.mem_cons_self c t, hc.2⟩]
      · rw [if_neg hc, if_neg]
        rintro ⟨hmem, hfl⟩
        rcases List.mem_cons.mp hmem with he | hmt
        · exact hc ⟨he, hfl⟩
        · exact hm ⟨hmt, hfl⟩

theorem reach_cells {b0 : Sudoku} (hcells : loadedCellOK b0) :
    ∀ {b : Sudoku}, Reach b0 b → ∀ Y X : Nat,
    ((b.board Y X).is_static = (b0.board Y X).is_static) ∧
    ((b0.board Y X).is_static = true → b.board Y X = b0.board Y X) ∧
    ((9 ≤ X ∨ 9 ≤ Y) → b.board Y X = b0.board Y X) := by
  intro b hR
  induction hR with
  | refl => exact fun Y X => ⟨rfl, fun _ => rfl, fun _ => rfl⟩
  | @update b hR ih =>
    intro Y X
    rcases ih Y X with ⟨ihf, ihs, iho⟩
    refine ⟨?_, ?_, ?_⟩
    · rw [update_possible_values, upd_fold_static_flag]
      exact ihf
    · intro hst
      have hbst : (b.board Y X).is_static = true := by
        rw [ihf]
        exact hst
      rw [update_possible_values, upd_fold_frozen scan_coords b (Or.inl hbst)]
      exact ihs hst
    · intro hout
      have hnm : ((X, Y) : Nat × Nat) ∉ scan_coords := by
        intro hm
        rcases mem_scan_coords.mp hm with ⟨h1, h2⟩
        omega
      rw [update_possible_values, upd_fold_not_mem scan_coords b hnm]
      exact iho hout
  | @collapse b x y r sh hx hy hR ih =>
    intro Y X
    rcases ih Y X with ⟨ihf, ihs, iho⟩
    rcases collapse_fst_cases b x y r sh with hc | ⟨v, hnc, hc⟩
    · rw [hc]
      exact ⟨ihf, ihs, iho⟩
    · rw [hc]
      have hne : ∀ h2 : ¬(Y = y ∧ X = x),
          (setValue b x y (CellValue.Certain v)).board Y X = b.board Y X :=
        fun h2 => setValue_other b x y _ h2
      refine ⟨?_, ?_, ?_⟩
      · rw [setValue_is_static]
        exact ihf
      · intro hst
        have htgt : ¬(Y = y ∧ X = x) := by
          rintro ⟨hY, hX⟩
          subst hY
          subst hX
          rcases loaded_static_certain hcells hst with ⟨d, hd⟩
          have : b.board Y X = b0.board Y X := ihs hst
          rw [this, hd] at hnc
          exact Bool.noConfusion hnc
        rw [hne htgt]
        exact ihs hst
      · intro hout
        have hx9 : x < 9 := hx
        have hy9 : y < 9 := hy
        have htgt : ¬(Y = y ∧ X = x) := by
          rintro ⟨hY, hX⟩
          subst hY
          subst hX
          omega
        rw [hne htgt]
        exact iho hout
  | @reset b hR ih =>
    intro Y X
    rcases ih Y X with ⟨ihf, ihs, iho⟩
    have hchar := reset_fold_board scan_coords b Y X
    refine ⟨?_, ?_, ?_⟩
    · rw [reset_board, hchar]
      by_cases hc : ((X, Y) : Nat × Nat) ∈ scan_coords ∧ (b.board Y X).is_static = false
      · rw [if_pos hc]
        exact ihf
      · rw [if_neg hc]
        exact ihf
    · intro hst
      have hbst : (b.board Y X).is_static = true := by
        rw [ihf]
        exact hst
      rw [reset_board, hchar, if_neg (by rintro ⟨_, hf⟩; rw [hbst] at hf; exact Bool.noConfusion hf)]
      exact ihs hst
    · intro hout
      have hnm : ((X, Y) : Nat × Nat) ∉ scan_coords := by
        intro hm
        rcases mem_scan_coords.mp hm with ⟨h1, h2⟩
        omega
      rw [reset_board, hchar, if_neg (by rintro ⟨hm, _⟩; exact hnm hm)]
      exact iho hout

theorem reach_reset_eq {ls : List (List Char)} {b0 b : Sudoku}
    (hload : from_file ls = some b0) (hR : Reach b0 b) : reset_board b = b0 := by
  have hcells := from_file_cells hload
  have hinv := reach_cells hcells hR
  apply sudoku_ext
  intro Y X
  rcases hinv Y X with ⟨ihf, ihs, iho⟩
  rw [reset_board, reset_fold_board scan_coords b Y X]
  by_cases hc : ((X, Y) : Nat × Nat) ∈ scan_coords ∧ (b.board Y X).is_static = false
  · rw [if_pos hc]
    have hb0f : (b0.board Y X).is_static = false := by
      rw [← ihf]
      exact hc.2
    rcases hcells Y X with hbl | ⟨d, hd⟩
    · rw [hbl, hc.2]
      rfl
    · exfalso
      rw [hd] at hb0f
      exact Bool.noConfusion hb0f
  · rw [if_neg hc]
    by_cases hm : ((X, Y) : Nat × Nat) ∈ scan_coords
    · have hfl : (b.board Y X).is_static = true := by
        cases hf2 : (b.board Y X).is_static with
        | false => exact absurd ⟨hm, hf2⟩ hc
        | true => rfl
      exact ihs (by rw [← ihf]; exact hfl)
    · have hout : 9 ≤ X ∨ 9 ≤ Y := by
        by_contra hno
        push_neg at hno
        exact hm (mem_scan_coords.mpr ⟨by omega, by omega⟩)
      exact iho hout

/-- C9: from any board reachable from a load by the core operations
(recompute, collapse on the primary, reset), a reset followed by a full
candidate recomputation gives exactly the same per-cell state as the fresh
load of the same input followed by the recomputation. -/
theorem claim_C9_reset_reload (ls : List (List Char)) (b0 b : Sudoku)
    (hload : from_file ls = some b0) (hR : Reach b0 b) :
    ∀ x y, x < 9 → y < 9 →
      (update_possible_values (reset_board b)).board y x =
        (update_possible_values b0).board y x := by
  rw [reach_reset_eq hload hR]
  exact fun x y _ _ => rfl

/-- C9 witness: after one recomputation pass on the loaded demo board, reset
followed by recomputation agrees with recomputation of the fresh load at cell
(0, 0). -/
theorem claim_C9_witness :
    (update_possible_values (reset_board (update_possible_values demoB))).board 0 0 =
      (update_possible_values demoB).board 0 0 :=
  claim_C9_reset_reload demoLines demoB (update_possible_values demoB) rfl
    (Reach.update Reach.refl) 0 0 (by decide) (by decide)

/-! Candidate lists are sorted sublists of 1..9 (C10). -/

theorem erase_fold_sublist (vals : List Nat) :
    ∀ pv : List Nat, List.Sublist (List.foldl List.erase pv vals) pv := by
  induction vals with
  | nil =>
    intro pv
    rw [List.foldl_nil]
  | cons w vals ih =>
    intro pv
    rw [List.foldl_cons]
    exact (ih (pv.erase w)).trans (List.erase_sublist w pv)

theorem computeCands_sublist (s : Sudoku) (x y : Nat) :
    List.Sublist (computeCands s x y) initialCands := by
  rw [computeCands_eq_erase_fold]
  exact erase_fold_sublist _ initialCands

theorem initialCands_sorted : List.Pairwise (fun a b => a < b) initialCands := by decide

theorem initialCands_bounds : ∀ v ∈ initialCands, 1 ≤ v ∧ v ≤ 9 := by decide

theorem computeCands_ok (s : Sudoku) (x y : Nat) :
    List.Pairwise (fun a b => a < b) (computeCands s x y) ∧
      ∀ v ∈ computeCands s x y, 1 ≤ v ∧ v ≤ 9 := by
  have hsub := computeCands_sublist s x y
  constructor
  · exact List.Pairwise.sublist hsub initialCands_sorted
  · intro v hv
    exact initialCands_bounds v (hsub.subset hv)

theorem upd_fold_value_cases (l : List (Nat × Nat)) :
    ∀ (s : Sudoku) (Y X : Nat),
    ((l.foldl (fun s c => update_possible_cell_values s c.1 c.2) s).board Y X).value =
      (s.board Y X).value ∨
    ∃ (s' : Sudoku) (a bb : Nat),
      ((l.foldl (fun s c => update_possible_cell_values s c.1 c.2) s).board Y X).value =
        CellValue.Uncertain (computeCands s' a bb) := by
  induction l with
  | nil =>
    intro s Y X
    left
    rfl
  | cons c t ih =>
    intro s Y X
    rw [List.foldl_cons]
    rcases ih (update_possible_cell_values s c.1 c.2) Y X with h | ⟨s', a, bb, h⟩
    · by_cases hcond : ((s.board c.2 c.1).is_static || (s.board c.2 c.1).value.is_certain) = true
      · left
        rw [h, upd_cell_skip hcond]
      · by_cases htgt : (Y = c.2 ∧ X = c.1)
        · right
          refine ⟨s, c.1, c.2, ?_⟩
          rw [h, upd_cell_write (bool_not_true hcond), setValue_board, if_pos htgt]
        · left
          rw [h, upd_cell_other htgt]
    · right
      exact ⟨s', a, bb, h⟩

set_option maxRecDepth 100000 in
theorem reach_cands {ls : List (List Char)} {b0 : Sudoku} (hload : from_file ls = some b0) :
    ∀ {b : Sudoku}, Reach b0 b → ∀ Y X l, (b.board Y X).value = CellValue.Uncertain l →
      List.Pairwise (fun a b => a < b) l ∧ ∀ v ∈ l, 1 ≤ v ∧ v ≤ 9 := by
  have hcells := from_file_cells hload
  intro b hR
  induction hR with
  | refl =>
    intro Y X l hv
    rcases hcells Y X with hbl | ⟨d, hd⟩
    · rw [hbl] at hv
      have h2 : ([] : List Nat) = l := by
        injection hv
      rw [← h2]
      exact ⟨List.Pairwise.nil, fun v hv2 => absurd hv2 (List.not_mem_nil v)⟩
    · rw [hd] at hv
      exact CellValue.noConfusion hv
  | @update b hR ih =>
    intro Y X l hv
    rw [update_possible_values] at hv
    rcases upd_fold_value_cases scan_coords b Y X with h | ⟨s', a, bb, h⟩
    · rw [h] at hv
      exact ih Y X l hv
    · rw [h] at hv
      have h2 : computeCands s' a bb = l := by
        injection hv
      rw [← h2]
      exact computeCands_ok s' a bb
  | @collapse b x y r sh hx hy hR ih =>
    intro Y X l hv
    rcases collapse_fst_cases b x y r sh with hc | ⟨v, _, hc⟩
    · rw [hc] at hv
      exact ih Y X l hv
    · rw [hc] at hv
      by_cases htgt : (Y = y ∧ X = x)
      · rw [setValue_board, if_pos htgt] at hv
        exact CellValue.noConfusion hv
      · rw [setValue_board, if_neg htgt] at hv
        exact ih Y X l hv
  | @reset b hR ih =>
    intro Y X l hv
    rw [reset_board, reset_fold_board scan_coords b Y X] at hv
    by_cases hcnd : ((X, Y) : Nat × Nat) ∈ scan_coords ∧ (b.board Y X).is_static = false
    · rw [if_pos hcnd] at hv
      have h2 : ([] : List Nat) = l := by
        injection hv
      rw [← h2]
      exact ⟨List.Pairwise.nil, fun v hv2 => absurd hv2 (List.not_mem_nil v)⟩
    · rw [if_neg hcnd] at hv
      exact ih Y X l hv

/-- C10: in every board reachable from a load by the core operations, every
candidates cell's list is strictly increasing (hence duplicate-free) and drawn
from 1..9: load and reset create only empty lists, recomputation deletes
elements from the ascending 1..9, and collapse never creates a candidates
value. -/
theorem claim_C10_candidates_sorted (ls : List (List Char)) (b0 b : Sudoku)
    (hload : from_file ls = some b0) (hR : Reach b0 b) :
    ∀ x y l, (b.board y x).value = CellValue.Uncertain l →
      List.Pairwise (fun a b => a < b) l ∧ l.Nodup ∧ ∀ v ∈ l, 1 ≤ v ∧ v ≤ 9 := by
  intro x y l hv
  rcases reach_cands hload hR y x l hv with ⟨hp, hb⟩
  exact ⟨hp, hp.imp (fun hlt => Nat.ne_of_lt hlt), hb⟩

set_option maxRecDepth 1000000 in
/-- C10 witness: after one recomputation on the loaded demo board, cell (5, 5)
holds the ascending duplicate-free candidate list 1..9. -/
theorem claim_C10_witness :
    List.Pairwise (fun a b => a < b) [1, 2, 3, 4, 5, 6, 7, 8, 9] ∧
      List.Nodup [1, 2, 3, 4, 5, 6, 7, 8, 9] :=
  ⟨(claim_C10_candidates_sorted demoLines demoB (update_possible_values demoB) rfl
      (Reach.update Reach.refl) 5 5 [1, 2, 3, 4, 5, 6, 7, 8, 9] (by decide)).1,
   (claim_C10_candidates_sorted demoLines demoB (update_possible_values demoB) rfl
      (Reach.update Reach.refl) 5 5 [1, 2, 3, 4, 5, 6, 7, 8, 9] (by decide)).2.1⟩

end Nesdoku
